import Mathlib

/-!
# Verification of the cachekit expiring key/value store

A shallow embedding of the `cachekit` Go package: a single `Cache` (shard)
with timestamped entries, periodic expiration sweeps over a tracked list of
soon-to-expire keys, and a `ShardedCache` router that delegates every
operation to the shard selected by an FNV-1 32-bit hash of the key modulo
the shard count.

Modelling conventions:
* Instants and `time.Duration` values are `Int` nanoseconds; `Time.Unix()`
  is floor division by `10^9` (`unixOf`).  Every function that reads the
  wall clock in Go takes the current instant `now : Int` as an argument.
* The Go `map[string]entry` is an association list with the usual
  lookup/insert/erase operations; `delete` on the map removes every binding
  of the key, insertion replaces in place or appends.
* A Go runtime panic (integer division by zero, index out of range,
  `make` with negative length) is modelled by `Option`, `none` being the
  panic.  A returned `error` is modelled by `Option String` (`some` the
  error message, `none` success); a mutating method that returns an error
  is modelled as returning the pair of the error and the post-state.
-/

namespace Cachekit

/-- Go: `DefaultExpirationTime time.Duration = 0` (nanoseconds). -/
def DefaultExpirationTime : Int := 0

/-- Go: `NoExpirationTime time.Duration = -1` (nanoseconds);
`int64(NoExpirationTime) = -1` is also the "never expires" timestamp
sentinel the sweep compares against. -/
def NoExpirationTime : Int := -1

/-- Nanoseconds per second, the divisor in `Time.Unix()`. -/
def nsPerSec : Int := 1000000000

/-- `t.Unix()` for an instant `t` in nanoseconds since the epoch:
seconds since the epoch, rounded toward negative infinity (Go stores
`sec` plus a nonnegative sub-second part, so `Unix` is the floor). -/
def unixOf (t : Int) : Int := Int.fdiv t nsPerSec

/-- Go: `removeByValue` — removes the first occurrence of `value`
from the slice (`slices.Index` + splice), the slice unchanged if absent. -/
def removeByValue : List String → String → List String
  | [], _ => []
  | x :: xs, value => if x = value then xs else x :: removeByValue xs value

/-- Go: `type entry struct { Content interface{}; ExpirationTimestamp int64 }`.
The payload type is a parameter `α` in place of `interface{}`. -/
structure entry (α : Type) where
  Content : α
  ExpirationTimestamp : Int
deriving Repr, DecidableEq

/-- Go: `type Cache struct`.  The `sync.RWMutex` field is dropped: the
model is sequential, each operation is one critical section. -/
structure Cache (α : Type) where
  expirationTime : Int
  cleanupTime : Int
  nextCleanupTime : Int
  expiringKeys : List String
  entries : List (String × entry α)
deriving Repr, DecidableEq

/-- Association-list reading of `Cache.entries[key]` (map indexing). -/
def lookupEntry {α : Type} : List (String × entry α) → String → Option (entry α)
  | [], _ => none
  | (k, e) :: rest, key => if k = key then some e else lookupEntry rest key

/-- Association-list writing of `Cache.entries[key] = entry`: replace the
binding in place if present, append otherwise. -/
def insertEntry {α : Type} : List (String × entry α) → String → entry α → List (String × entry α)
  | [], key, e => [(key, e)]
  | (k, e0) :: rest, key, e => if k = key then (key, e) :: rest else (k, e0) :: insertEntry rest key e

/-- Association-list reading of Go `delete(Cache.entries, key)`: every
binding of `key` is removed. -/
def eraseEntry {α : Type} : List (String × entry α) → String → List (String × entry α)
  | [], _ => []
  | (k, e) :: rest, key => if k = key then eraseEntry rest key else (k, e) :: eraseEntry rest key

/-- Go: `New(expirationTime, cleanupTime)` evaluated at instant `now`
(the `time.Now()` inside the constructor).  `nextCleanupTime` is
`time.Now().Add(cleanupTime).Unix()`, computed once here and nowhere else. -/
def New (α : Type) (expirationTime cleanupTime now : Int) : Cache α :=
  { expirationTime := expirationTime
    cleanupTime := cleanupTime
    nextCleanupTime := unixOf (now + cleanupTime)
    expiringKeys := []
    entries := [] }

/-- The guard in `New` deciding whether `go Cache.cleanUpCache()` is
spawned: `cleanupTime != 0 && cleanupTime != NoExpirationTime`. -/
def NewStartsSweeper (cleanupTime : Int) : Bool :=
  cleanupTime != 0 && cleanupTime != NoExpirationTime

/-- The removal test of the sweep, exactly the condition at line 76 of the
cache source: `entry.ExpirationTimestamp < currentTimestamp &&
entry.ExpirationTimestamp != int64(NoExpirationTime)`. -/
def isExpiredAt {α : Type} (e : entry α) (currentTimestamp : Int) : Prop :=
  e.ExpirationTimestamp < currentTimestamp ∧ e.ExpirationTimestamp ≠ NoExpirationTime

instance {α : Type} (e : entry α) (t : Int) : Decidable (isExpiredAt e t) :=
  inferInstanceAs (Decidable
    (e.ExpirationTimestamp < t ∧ e.ExpirationTimestamp ≠ NoExpirationTime))

/-- The loop body of `removeExpiredEntries`: walk `expiringKeys`, deleting
from the entries map each tracked entry that is expired
and accumulating the surviving tracked keys in order; tracked keys missing
from the map are skipped. -/
def sweepLoop {α : Type} (currentTimestamp : Int) :
    List String → List (String × entry α) → List String →
    List (String × entry α) × List String
  | [], es, remainingKeys => (es, remainingKeys)
  | key :: keys, es, remainingKeys =>
    match lookupEntry es key with
    | none => sweepLoop currentTimestamp keys es remainingKeys
    | some e =>
      if isExpiredAt e currentTimestamp
      then sweepLoop currentTimestamp keys (eraseEntry es key) remainingKeys
      else sweepLoop currentTimestamp keys es (remainingKeys ++ [key])

/-- Go: `Cache.removeExpiredEntries()` (one sweep pass) at instant `now`;
`currentTimestamp := time.Now().Unix()`. -/
def Cache.removeExpiredEntries {α : Type} (c : Cache α) (now : Int) : Cache α :=
  let currentTimestamp := unixOf now
  let r := sweepLoop currentTimestamp c.expiringKeys c.entries []
  { c with entries := r.1, expiringKeys := r.2 }

/-- Go: `Cache.Get(key)`; `(nil, false)` is `none`, `(v, true)` is `some v`. -/
def Cache.Get {α : Type} (c : Cache α) (key : String) : Option α :=
  match lookupEntry c.entries key with
  | none => none
  | some e => some e.Content

/-- Go: `Cache.GetWithExpiration(key)`; the `time.Unix(ts, 0)` result is
represented by the seconds value `ts` itself. -/
def Cache.GetWithExpiration {α : Type} (c : Cache α) (key : String) : Option (α × Int) :=
  match lookupEntry c.entries key with
  | none => none
  | some e => some (e.Content, e.ExpirationTimestamp)

/-- Go: `Cache.Add(key, content, expirationTime)` at instant `now`.
Returns `(error, post-state)`.  The stored expiration is
`now + expirationTime` in Unix seconds, overridden to
`now + Cache.expirationTime` when `expirationTime == DefaultExpirationTime`;
the key joins `expiringKeys` when the expiration is at or before
`nextCleanupTime`. -/
def Cache.Add {α : Type} (c : Cache α) (key : String) (content : α)
    (expirationTime now : Int) : Option String × Cache α :=
  match lookupEntry c.entries key with
  | some _ => (some ("[Cachekit] entry " ++ key ++ " already exists in Cache"), c)
  | none =>
    let expiration := if expirationTime = DefaultExpirationTime
      then unixOf (now + c.expirationTime)
      else unixOf (now + expirationTime)
    let ek := if expiration ≤ c.nextCleanupTime then c.expiringKeys ++ [key] else c.expiringKeys
    (none, { c with expiringKeys := ek,
                    entries := insertEntry c.entries key ⟨content, expiration⟩ })

/-- Go: `Cache.Set(key, content, expirationTime)` at instant `now`:
same expiration resolution as `Add`; the key is first removed from
`expiringKeys` if tracked (`slices.Contains` + `removeByValue`), then
re-tracked when the new expiration is at or before `nextCleanupTime`. -/
def Cache.Set {α : Type} (c : Cache α) (key : String) (content : α)
    (expirationTime now : Int) : Cache α :=
  let expiration := if expirationTime = DefaultExpirationTime
    then unixOf (now + c.expirationTime)
    else unixOf (now + expirationTime)
  let ek0 := if key ∈ c.expiringKeys then removeByValue c.expiringKeys key else c.expiringKeys
  let ek1 := if expiration ≤ c.nextCleanupTime then ek0 ++ [key] else ek0
  { c with expiringKeys := ek1, entries := insertEntry c.entries key ⟨content, expiration⟩ }

/-- Go: `Cache.Delete(key)`: error if absent, otherwise untrack and remove. -/
def Cache.Delete {α : Type} (c : Cache α) (key : String) : Option String × Cache α :=
  match lookupEntry c.entries key with
  | none => (some ("[Cachekit] could not find key " ++ key ++ " in Cache"), c)
  | some _ =>
    let ek := if key ∈ c.expiringKeys then removeByValue c.expiringKeys key else c.expiringKeys
    (none, { c with expiringKeys := ek, entries := eraseEntry c.entries key })

/-- Go: `Cache.Flush()`. -/
def Cache.Flush {α : Type} (c : Cache α) : Cache α :=
  { c with entries := [], expiringKeys := [] }

/-- Go: `Cache.Length()`. -/
def Cache.Length {α : Type} (c : Cache α) : Nat := c.entries.length

/-- UTF-8 encoding of one Unicode scalar value, as byte values. -/
def utf8BytesOfScalar (c : Nat) : List Nat :=
  if c < 128 then [c]
  else if c < 2048 then [192 + c / 64, 128 + c % 64]
  else if c < 65536 then [224 + c / 4096, 128 + c / 64 % 64, 128 + c % 64]
  else [240 + c / 262144, 128 + c / 4096 % 64, 128 + c / 64 % 64, 128 + c % 64]

/-- The bytes `[]byte(key)` hashed in `getShard`: the UTF-8 encoding of the key. -/
def keyBytes (key : String) : List Nat :=
  (key.data.map (fun ch => utf8BytesOfScalar ch.toNat)).flatten

/-- One step of Go's `hash/fnv` `New32` (FNV-1) over a byte:
multiply by the 32-bit FNV prime, truncate to 32 bits, xor the byte. -/
def fnv32Step (h b : Nat) : Nat := (h * 16777619 % 4294967296) ^^^ b

/-- `fnv.New32()` then `Write(bytes)` then `Sum32()`: FNV-1 from the
32-bit offset basis. -/
def fnv32 (bytes : List Nat) : Nat := bytes.foldl fnv32Step 2166136261

/-- The full hash of a key in `getShard`. -/
def fnv32OfKey (key : String) : Nat := fnv32 (keyBytes key)

/-- Go conversion `uint32(n)` of an `int`: reduction modulo `2^32`. -/
def uint32OfInt (n : Int) : Nat := (n % 4294967296).toNat

/-- Go: `type ShardedCache struct { shards []*Cache; shardCount int }`. -/
structure ShardedCache (α : Type) where
  shards : List (Cache α)
  shardCount : Int
deriving Repr, DecidableEq

/-- Go: `NewShardedCache(shardCount, expirationTime, cleanupTime)` at
instant `now`.  `make([]*Cache, shardCount)` panics for a negative length
(`none`); otherwise the loop fills the slice with `shardCount` caches built
by `New`, all identical in this pure model.  No `shardCount` validation is
performed. -/
def NewShardedCache (α : Type) (shardCount expirationTime cleanupTime now : Int) :
    Option (ShardedCache α) :=
  if shardCount < 0 then none
  else some { shards := List.replicate shardCount.toNat (New α expirationTime cleanupTime now)
              shardCount := shardCount }

/-- Go: `shardIndex := hash.Sum32() % uint32(shardedCache.shardCount)` —
`none` models the integer-divide-by-zero panic when
`uint32(shardCount) = 0`. -/
def ShardedCache.getShardIndex {α : Type} (sc : ShardedCache α) (key : String) : Option Nat :=
  let m := uint32OfInt sc.shardCount
  if m = 0 then none else some (fnv32OfKey key % m)

/-- Go: `getShard(key)` — the selected shard; `none` models a panic
(modulo by zero, or slice index out of range). -/
def ShardedCache.getShard {α : Type} (sc : ShardedCache α) (key : String) : Option (Cache α) :=
  match sc.getShardIndex key with
  | none => none
  | some i => sc.shards.get? i

/-- Go: `ShardedCache.Get(key)` — delegates to the selected shard. -/
def ShardedCache.Get {α : Type} (sc : ShardedCache α) (key : String) : Option (Option α) :=
  match sc.getShard key with
  | none => none
  | some shard => some (shard.Get key)

/-- Go: `ShardedCache.GetWithExpiration(key)`. -/
def ShardedCache.GetWithExpiration {α : Type} (sc : ShardedCache α) (key : String) :
    Option (Option (α × Int)) :=
  match sc.getShard key with
  | none => none
  | some shard => some (shard.GetWithExpiration key)

/-- Go: `ShardedCache.Add(key, content, expirationTime)` at instant `now`:
the selected shard is mutated in place, so the post-state replaces that
shard and keeps the rest. -/
def ShardedCache.Add {α : Type} (sc : ShardedCache α) (key : String) (content : α)
    (expirationTime now : Int) : Option (Option String × ShardedCache α) :=
  match sc.getShardIndex key with
  | none => none
  | some i =>
    match sc.shards.get? i with
    | none => none
    | some shard =>
      let r := shard.Add key content expirationTime now
      some (r.1, { sc with shards := sc.shards.set i r.2 })

/-- Go: `ShardedCache.Set(key, content, expirationTime)` at instant `now`. -/
def ShardedCache.Set {α : Type} (sc : ShardedCache α) (key : String) (content : α)
    (expirationTime now : Int) : Option (ShardedCache α) :=
  match sc.getShardIndex key with
  | none => none
  | some i =>
    match sc.shards.get? i with
    | none => none
    | some shard =>
      some { sc with shards := sc.shards.set i (shard.Set key content expirationTime now) }

/-- Go: `ShardedCache.Delete(key)`. -/
def ShardedCache.Delete {α : Type} (sc : ShardedCache α) (key : String) :
    Option (Option String × ShardedCache α) :=
  match sc.getShardIndex key with
  | none => none
  | some i =>
    match sc.shards.get? i with
    | none => none
    | some shard =>
      let r := shard.Delete key
      some (r.1, { sc with shards := sc.shards.set i r.2 })

/-- Go: `ShardedCache.Flush()` — flushes every shard in sequence. -/
def ShardedCache.Flush {α : Type} (sc : ShardedCache α) : ShardedCache α :=
  { sc with shards := sc.shards.map Cache.Flush }

/-- The TTL-resolution rule as the specification states it
(spec §4.1, "TTL resolution, applied identically in Add and Set"):
`USE_DEFAULT ↦ now + defaultTTL`, `NEVER ↦ NEVER_SENTINEL`,
anything else `↦ now + ttlOverride`; for comparison with the resolution
the code actually performs inside `Add` and `Set`. -/
def specTTLResolution (defaultTTL ttlOverride now : Int) : Int :=
  if ttlOverride = DefaultExpirationTime then unixOf (now + defaultTTL)
  else if ttlOverride = NoExpirationTime then NoExpirationTime
  else unixOf (now + ttlOverride)

/-- A tracked key survives a sweep pass at `currentTimestamp` when it has
an entry and that entry is not expired. -/
def survives {α : Type} (es : List (String × entry α)) (currentTimestamp : Int)
    (key : String) : Bool :=
  match lookupEntry es key with
  | none => false
  | some e => decide (¬ isExpiredAt e currentTimestamp)

/-- The cache states reachable through the public interface: a fresh
`New` followed by any sequence of `Add`, `Set`, `Delete`, `Flush` and
sweep passes, each at an arbitrary instant. -/
inductive Reachable (α : Type) : Cache α → Prop where
  | new : ∀ expirationTime cleanupTime now, Reachable α (New α expirationTime cleanupTime now)
  | add : ∀ c key v d now, Reachable α c → Reachable α (Cache.Add c key v d now).2
  | set : ∀ c key v d now, Reachable α c → Reachable α (Cache.Set c key v d now)
  | del : ∀ c key, Reachable α c → Reachable α (Cache.Delete c key).2
  | flush : ∀ c, Reachable α c → Reachable α (Cache.Flush c)
  | sweep : ∀ c now, Reachable α c → Reachable α (c.removeExpiredEntries now)

/-- The internal well-formedness the operations maintain: every tracked
key has an entry, and no key is tracked twice. -/
def goodCache {α : Type} (c : Cache α) : Prop :=
  (∀ k, k ∈ c.expiringKeys → (lookupEntry c.entries k).isSome) ∧ c.expiringKeys.Nodup

/-- Iterated sweep passes, one per instant in the list. -/
def applySweeps {α : Type} : Cache α → List Int → Cache α
  | c, [] => c
  | c, n :: ns => applySweeps (c.removeExpiredEntries n) ns

/-- A router whose shard count is in range and whose slice really holds
that many shards (as `NewShardedCache` builds it). -/
def wfSharded {α : Type} (sc : ShardedCache α) : Prop :=
  1 ≤ sc.shardCount ∧ sc.shardCount < 4294967296 ∧
    sc.shards.length = sc.shardCount.toNat

/-- Shared concrete scenario: cache built at instant `10^9` ns with
default TTL `0` and sweep interval 5 s (`nextCleanupTime = 6`). -/
def exampleBase : Cache Nat := New Nat 0 5000000000 1000000000

/-- `exampleBase` after `Set("k", 42, NoExpirationTime)` at the same
instant: holds `("k", ⟨42, 0⟩)` and tracks `"k"`. -/
def exampleNeverSet : Cache Nat := Cache.Set exampleBase "k" 42 NoExpirationTime 1000000000

/-- A concrete two-shard router over distinguishable shards. -/
def exampleRouter : ShardedCache Nat :=
  { shards := [New Nat 1 (-1) 0, New Nat 2 (-1) 0], shardCount := 2 }

/-! ## Theorems for the claims -/

/-- C1.  The claim fails on the code: after `Set(k, 42, NoExpirationTime)`
the entry is retrievable, but it is *not* immortal — `Set` stores
`(now - 1ns).Unix()` rather than the never sentinel, the key is tracked
(its timestamp is below `nextCleanupTime`), and the very next sweep pass
that runs after that second removes it, with no Delete or Flush involved.
Here the cache is built at instant `10^9` ns with default TTL `0` and
sweep interval 5 s, the entry is set at the same instant, and the sweep
runs at instant `7·10^9` ns. -/
theorem C1_never_sentinel_entry_removed_by_sweep :
    Cache.Get (Cache.Set (New Nat 0 5000000000 1000000000) "k" 42 NoExpirationTime
        1000000000) "k" = some 42 ∧
    Cache.Get ((Cache.Set (New Nat 0 5000000000 1000000000) "k" 42 NoExpirationTime
        1000000000).removeExpiredEntries 7000000000) "k" = none := by
  decide

/-- C2.  The claim fails on the code: `Add` (and `Set`) resolve the TTL by
a two-branch rule only.  At `ttlOverride = NoExpirationTime` the code
stores `(now - 1ns).Unix()` (here `0`), while the spec's three-branch rule
(`specTTLResolution`) yields the never sentinel `-1`; the two differ. -/
theorem C2_add_never_branch_missing :
    (Cache.Add (New Nat 0 5000000000 1000000000) "k" 42 NoExpirationTime 1000000000).1
        = none ∧
    lookupEntry (Cache.Add (New Nat 0 5000000000 1000000000) "k" 42 NoExpirationTime
        1000000000).2.entries "k" = some ⟨42, 0⟩ ∧
    specTTLResolution (New Nat 0 5000000000 1000000000).expirationTime NoExpirationTime
        1000000000 = -1 ∧
    lookupEntry (Cache.Set (New Nat 0 5000000000 1000000000) "k" 42 NoExpirationTime
        1000000000).entries "k" = some ⟨42, 0⟩ ∧
    (0 : Int) ≠ -1 := by
  refine ⟨by decide, by decide, by decide, by decide, by decide⟩

/-- C3.  The claim fails on the code: `NewShardedCache(0, …)` is not
rejected — it returns a router with zero shards — and the subsequent
`Get` (like every keyed operation) panics in `getShard` on
`hash % uint32(0)` (modelled by `none`). -/
theorem C3_zero_shards_accepted_then_get_panics :
    NewShardedCache Nat 0 3 5 7 = some { shards := [], shardCount := 0 } ∧
    ShardedCache.Get { shards := [], shardCount := (0 : Int) } (α := Nat) "a" = none ∧
    ShardedCache.Set { shards := [], shardCount := (0 : Int) } (α := Nat) "a" 1 0 0 = none := by
  refine ⟨by decide, by decide, by decide⟩

/-- C6 counterexample.  The claim ("started iff strictly positive") fails:
`cleanupTime = -2` ns is not positive, yet the guard in `New` spawns the
sweep goroutine for it. -/
theorem C6_negative_interval_schedules_sweep :
    NewStartsSweeper (-2) = true ∧ ¬ ((0 : Int) < -2) := by
  decide

/-- C6 amended.  The sweep task is spawned at construction iff the
configured `cleanupTime` is neither `0` nor the never sentinel `-1`;
every other value — positive or negative — schedules it. -/
theorem C6_sweeper_guard_characterization (cleanupTime : Int) :
    NewStartsSweeper cleanupTime = true ↔
      cleanupTime ≠ 0 ∧ cleanupTime ≠ NoExpirationTime := by
  simp [NewStartsSweeper, NoExpirationTime]

/-! ## Association-list lemmas -/

theorem lookupEntry_insertEntry {α : Type} (es : List (String × entry α))
    (key k : String) (e : entry α) :
    lookupEntry (insertEntry es key e) k
      = if key = k then some e else lookupEntry es k := by
  induction es with
  | nil =>
    by_cases h : key = k <;> simp [insertEntry, lookupEntry, h]
  | cons p rest ih =>
    obtain ⟨k0, e0⟩ := p
    by_cases h0 : k0 = key
    · subst h0
      by_cases h : k0 = k <;> simp [insertEntry, lookupEntry, h]
    · by_cases h : k0 = k
      · subst h
        have hkk : ¬ key = k0 := fun hh => h0 hh.symm
        simp [insertEntry, lookupEntry, h0, hkk]
      · simp [insertEntry, lookupEntry, h0, h, ih]

theorem lookupEntry_eraseEntry {α : Type} (es : List (String × entry α))
    (key k : String) :
    lookupEntry (eraseEntry es key) k
      = if key = k then none else lookupEntry es k := by
  induction es with
  | nil =>
    by_cases h : key = k <;> simp [eraseEntry, lookupEntry, h]
  | cons p rest ih =>
    obtain ⟨k0, e0⟩ := p
    by_cases h0 : k0 = key
    · subst h0
      by_cases h : k0 = k
      · subst h
        simp [eraseEntry, lookupEntry, ih]
      · simp [eraseEntry, lookupEntry, h, ih]
    · by_cases h : k0 = k
      · subst h
        have hkk : ¬ key = k0 := fun hh => h0 hh.symm
        simp [eraseEntry, lookupEntry, h0, hkk]
      · simp [eraseEntry, lookupEntry, h0, h, ih]

theorem lookupEntry_isSome_length {α : Type} (es : List (String × entry α))
    (k : String) (e : entry α) (h : lookupEntry es k = some e) :
    1 ≤ es.length := by
  cases es with
  | nil => simp [lookupEntry] at h
  | cons p rest => simp

theorem removeByValue_sublist (xs : List String) (v : String) :
    List.Sublist (removeByValue xs v) xs := by
  induction xs with
  | nil => simp [removeByValue]
  | cons x rest ih =>
    by_cases h : x = v
    · rw [removeByValue, if_pos h]
      exact List.sublist_cons_self x rest
    · rw [removeByValue, if_neg h]
      exact List.Sublist.cons₂ x ih

theorem mem_of_mem_removeByValue {xs : List String} {v k : String}
    (h : k ∈ removeByValue xs v) : k ∈ xs :=
  (removeByValue_sublist xs v).mem h

theorem nodup_removeByValue {xs : List String} (v : String) (h : xs.Nodup) :
    (removeByValue xs v).Nodup :=
  h.sublist (removeByValue_sublist xs v)

theorem not_mem_removeByValue_self {xs : List String} {v : String}
    (h : xs.Nodup) : v ∉ removeByValue xs v := by
  induction xs with
  | nil => simp [removeByValue]
  | cons x rest ih =>
    by_cases hx : x = v
    · subst hx
      simpa [removeByValue] using (List.nodup_cons.mp h).1
    · have := ih (List.nodup_cons.mp h).2
      simp [removeByValue, hx, this]
      exact fun hh => hx hh.symm

/-! ## Sweep-loop lemmas -/

theorem sweepLoop_lookup_none {α : Type} (cur : Int) :
    ∀ (ks : List String) (es : List (String × entry α)) (rem : List String)
      (k : String), lookupEntry es k = none →
      lookupEntry (sweepLoop cur ks es rem).1 k = none := by
  intro ks
  induction ks with
  | nil =>
    intro es rem k h
    simpa [sweepLoop] using h
  | cons key keys ih =>
    intro es rem k h
    cases hl : lookupEntry es key with
    | none => simpa [sweepLoop, hl] using ih es rem k h
    | some e =>
      by_cases he : isExpiredAt e cur
      · have h' : lookupEntry (eraseEntry es key) k = none := by
          rw [lookupEntry_eraseEntry]
          by_cases hk : key = k <;> simp [hk, h]
        simpa [sweepLoop, hl, he] using ih (eraseEntry es key) rem k h'
      · simpa [sweepLoop, hl, he] using ih es (rem ++ [key]) k h

theorem sweepLoop_lookup_untracked {α : Type} (cur : Int) :
    ∀ (ks : List String) (es : List (String × entry α)) (rem : List String)
      (k : String), k ∉ ks →
      lookupEntry (sweepLoop cur ks es rem).1 k = lookupEntry es k := by
  intro ks
  induction ks with
  | nil =>
    intro es rem k _
    simp [sweepLoop]
  | cons key keys ih =>
    intro es rem k hk
    have hkey : k ≠ key := fun hh => hk (hh ▸ List.mem_cons_self key keys)
    have hks : k ∉ keys := fun hh => hk (List.mem_cons_of_mem key hh)
    cases hl : lookupEntry es key with
    | none => simpa [sweepLoop, hl] using ih es rem k hks
    | some e =>
      by_cases he : isExpiredAt e cur
      · have hkey2 : ¬ key = k := fun hh => hkey (Eq.symm hh)
        have h' : lookupEntry (eraseEntry es key) k = lookupEntry es k := by
          rw [lookupEntry_eraseEntry]
          simp [hkey2]
        rw [sweepLoop]
        simpa [hl, he, h'] using (ih (eraseEntry es key) rem k hks).trans h'
      · simpa [sweepLoop, hl, he] using ih es (rem ++ [key]) k hks

theorem sweepLoop_lookup_live {α : Type} (cur : Int) :
    ∀ (ks : List String) (es : List (String × entry α)) (rem : List String)
      (k : String) (e : entry α), lookupEntry es k = some e →
      ¬ isExpiredAt e cur →
      lookupEntry (sweepLoop cur ks es rem).1 k = some e := by
  intro ks
  induction ks with
  | nil =>
    intro es rem k e h _
    simpa [sweepLoop] using h
  | cons key keys ih =>
    intro es rem k e h he
    cases hl : lookupEntry es key with
    | none => simpa [sweepLoop, hl] using ih es rem k e h he
    | some e2 =>
      by_cases he2 : isExpiredAt e2 cur
      · have hkey : k ≠ key := by
          intro hh
          subst hh
          rw [h] at hl
          cases hl
          exact he he2
        have hkey2 : ¬ key = k := fun hh => hkey (Eq.symm hh)
        have h' : lookupEntry (eraseEntry es key) k = some e := by
          rw [lookupEntry_eraseEntry]
          simp [hkey2, h]
        simpa [sweepLoop, hl, he2] using ih (eraseEntry es key) rem k e h' he
      · simpa [sweepLoop, hl, he2] using ih es (rem ++ [key]) k e h he

theorem sweepLoop_lookup_expired {α : Type} (cur : Int) :
    ∀ (ks : List String) (es : List (String × entry α)) (rem : List String)
      (k : String) (e : entry α), k ∈ ks → lookupEntry es k = some e →
      isExpiredAt e cur →
      lookupEntry (sweepLoop cur ks es rem).1 k = none := by
  intro ks
  induction ks with
  | nil =>
    intro es rem k e hk
    simp at hk
  | cons key keys ih =>
    intro es rem k e hk h he
    cases hl : lookupEntry es key with
    | none =>
      have hkey : k ≠ key := by
        intro hh
        subst hh
        rw [h] at hl
        cases hl
      have hks : k ∈ keys := by
        cases List.mem_cons.mp hk with
        | inl hh => exact absurd hh hkey
        | inr hh => exact hh
      simpa [sweepLoop, hl] using ih es rem k e hks h he
    | some e2 =>
      by_cases he2 : isExpiredAt e2 cur
      · by_cases hkey : k = key
        · subst hkey
          have h' : lookupEntry (eraseEntry es k) k = none := by
            rw [lookupEntry_eraseEntry]
            simp
          simpa [sweepLoop, hl, he2] using
            sweepLoop_lookup_none cur keys (eraseEntry es k) rem k h'
        · have hks : k ∈ keys := by
            cases List.mem_cons.mp hk with
            | inl hh => exact absurd hh hkey
            | inr hh => exact hh
          have hkey2 : ¬ key = k := fun hh => hkey (Eq.symm hh)
          have h' : lookupEntry (eraseEntry es key) k = some e := by
            rw [lookupEntry_eraseEntry]
            simp [hkey2, h]
          simpa [sweepLoop, hl, he2] using ih (eraseEntry es key) rem k e hks h' he
      · by_cases hkey : k = key
        · subst hkey
          rw [h] at hl
          cases hl
          exact absurd he he2
        · have hks : k ∈ keys := by
            cases List.mem_cons.mp hk with
            | inl hh => exact absurd hh hkey
            | inr hh => exact hh
          simpa [sweepLoop, hl, he2] using ih es (rem ++ [key]) k e hks h he

theorem survives_eraseEntry_of_expired {α : Type} {es : List (String × entry α)}
    {key : String} {e : entry α} {cur : Int}
    (h : lookupEntry es key = some e) (he : isExpiredAt e cur) :
    ∀ k, survives (eraseEntry es key) cur k = survives es cur k := by
  intro k
  by_cases hk : key = k
  · subst hk
    simp [survives, lookupEntry_eraseEntry, h, he]
  · simp [survives, lookupEntry_eraseEntry, hk]

theorem sweepLoop_keys {α : Type} (cur : Int) :
    ∀ (ks : List String) (es : List (String × entry α)) (rem : List String),
      (sweepLoop cur ks es rem).2 = rem ++ ks.filter (survives es cur) := by
  intro ks
  induction ks with
  | nil =>
    intro es rem
    simp [sweepLoop]
  | cons key keys ih =>
    intro es rem
    cases hl : lookupEntry es key with
    | none =>
      have hs : survives es cur key = false := by simp [survives, hl]
      simpa [sweepLoop, hl, List.filter_cons, hs] using ih es rem
    | some e =>
      by_cases he : isExpiredAt e cur
      · have hs : survives es cur key = false := by simp [survives, hl, he]
        have hcong : keys.filter (survives (eraseEntry es key) cur)
            = keys.filter (survives es cur) := by
          apply List.filter_congr
          intro k _
          exact survives_eraseEntry_of_expired hl he k
        rw [sweepLoop]
        simp only [hl, he, if_pos]
        rw [ih (eraseEntry es key) rem, hcong, List.filter_cons, hs]
        simp
      · have hs : survives es cur key = true := by simp [survives, hl, he]
        rw [sweepLoop]
        simp only [hl, he, if_neg, ite_false]
        rw [ih es (rem ++ [key]), List.filter_cons, hs]
        simp

/-! ## One sweep pass, at the `removeExpiredEntries` level -/

theorem sweep_lookup_untracked {α : Type} (c : Cache α) (now : Int) (k : String)
    (hk : k ∉ c.expiringKeys) :
    lookupEntry (c.removeExpiredEntries now).entries k = lookupEntry c.entries k := by
  simpa [Cache.removeExpiredEntries] using
    sweepLoop_lookup_untracked (unixOf now) c.expiringKeys c.entries [] k hk

theorem sweep_lookup_live {α : Type} (c : Cache α) (now : Int) (k : String)
    (e : entry α) (h : lookupEntry c.entries k = some e)
    (he : ¬ isExpiredAt e (unixOf now)) :
    lookupEntry (c.removeExpiredEntries now).entries k = some e := by
  simpa [Cache.removeExpiredEntries] using
    sweepLoop_lookup_live (unixOf now) c.expiringKeys c.entries [] k e h he

theorem sweep_lookup_expired {α : Type} (c : Cache α) (now : Int) (k : String)
    (e : entry α) (hk : k ∈ c.expiringKeys) (h : lookupEntry c.entries k = some e)
    (he : isExpiredAt e (unixOf now)) :
    lookupEntry (c.removeExpiredEntries now).entries k = none := by
  simpa [Cache.removeExpiredEntries] using
    sweepLoop_lookup_expired (unixOf now) c.expiringKeys c.entries [] k e hk h he

theorem sweep_keys {α : Type} (c : Cache α) (now : Int) :
    (c.removeExpiredEntries now).expiringKeys
      = c.expiringKeys.filter (survives c.entries (unixOf now)) := by
  simpa [Cache.removeExpiredEntries] using
    sweepLoop_keys (unixOf now) c.expiringKeys c.entries []

theorem sweep_nextCleanupTime {α : Type} (c : Cache α) (now : Int) :
    (c.removeExpiredEntries now).nextCleanupTime = c.nextCleanupTime := by
  simp [Cache.removeExpiredEntries]

/-- C5.  One sweep pass at instant `now`, among the tracked candidate keys,
removes exactly the entries that are expired (`expiresAt < now` in seconds
and `expiresAt ≠` the never sentinel): a tracked expired entry is gone
afterwards; an entry that is unexpired — in particular one holding the
sentinel — keeps its exact binding; an untracked key's binding is untouched
either way; and the tracked set is rebuilt as exactly the tracked keys that
survive with a live entry. -/
theorem C5_sweep_removes_exactly_tracked_expired {α : Type} (c : Cache α) (now : Int) :
    (∀ k e, k ∈ c.expiringKeys → lookupEntry c.entries k = some e →
        isExpiredAt e (unixOf now) →
        lookupEntry (c.removeExpiredEntries now).entries k = none) ∧
    (∀ k e, lookupEntry c.entries k = some e → ¬ isExpiredAt e (unixOf now) →
        lookupEntry (c.removeExpiredEntries now).entries k = some e) ∧
    (∀ k, k ∉ c.expiringKeys →
        lookupEntry (c.removeExpiredEntries now).entries k = lookupEntry c.entries k) ∧
    (c.removeExpiredEntries now).expiringKeys
        = c.expiringKeys.filter (survives c.entries (unixOf now)) := by
  exact ⟨fun k e hk h he => sweep_lookup_expired c now k e hk h he,
    fun k e h he => sweep_lookup_live c now k e h he,
    fun k hk => sweep_lookup_untracked c now k hk,
    sweep_keys c now⟩

/-- C5 witness: in the concrete never-sentinel scenario the sweep at
instant `7·10^9` ns removes the tracked entry `("k", ⟨42, 0⟩)`. -/
theorem C5_sweep_removes_exactly_tracked_expired_witness :
    lookupEntry (exampleNeverSet.removeExpiredEntries 7000000000).entries "k" = none :=
  (C5_sweep_removes_exactly_tracked_expired exampleNeverSet 7000000000).1 "k"
    ⟨42, 0⟩ (by decide) (by decide) (by decide)

/-- C7.  `Add` on a key already present returns the AlreadyExists error
and returns with the whole cache state — entries, expirations, tracked
keys, length — exactly as before. -/
theorem C7_add_existing_key_unchanged {α : Type} (c : Cache α) (k : String)
    (v : α) (d now : Int) (e : entry α) (h : lookupEntry c.entries k = some e) :
    (Cache.Add c k v d now).1
        = some ("[Cachekit] entry " ++ k ++ " already exists in Cache") ∧
    (Cache.Add c k v d now).2 = c := by
  constructor <;> simp [Cache.Add, h]

/-- C7 witness: adding `"k"` again to the concrete cache that holds it
fails and leaves the cache equal to itself. -/
theorem C7_add_existing_key_unchanged_witness :
    (Cache.Add exampleNeverSet "k" 7 0 0).1
        = some ("[Cachekit] entry " ++ "k" ++ " already exists in Cache") ∧
    (Cache.Add exampleNeverSet "k" 7 0 0).2 = exampleNeverSet :=
  C7_add_existing_key_unchanged exampleNeverSet "k" 7 0 0 ⟨42, 0⟩ (by decide)

/-- C8.  `Get` answers found if and only if the key is bound in the
entries map and never consults the expiration: a bound entry's content is
returned even when the entry is expired at the current instant, and such
an entry still counts toward `Length`, which is the plain size of the
entries map. -/
theorem C8_get_and_length_ignore_expiration {α : Type} (c : Cache α) (k : String)
    (now : Int) :
    ((Cache.Get c k).isSome ↔ (lookupEntry c.entries k).isSome) ∧
    (∀ e, lookupEntry c.entries k = some e → Cache.Get c k = some e.Content) ∧
    (∀ e, lookupEntry c.entries k = some e → isExpiredAt e (unixOf now) →
        Cache.Get c k = some e.Content ∧ 1 ≤ Cache.Length c) ∧
    Cache.Length c = c.entries.length := by
  refine ⟨?_, ?_, ?_, rfl⟩
  · cases h : lookupEntry c.entries k <;> simp [Cache.Get, h]
  · intro e h
    simp [Cache.Get, h]
  · intro e h _
    exact ⟨by simp [Cache.Get, h],
      by simpa [Cache.Length] using lookupEntry_isSome_length c.entries k e h⟩

/-- C8 witness: in the concrete scenario, at instant `7·10^9` ns the entry
`("k", ⟨42, 0⟩)` is expired but not yet swept, and `Get` still returns it. -/
theorem C8_get_and_length_ignore_expiration_witness :
    Cache.Get exampleNeverSet "k" = some ((⟨42, 0⟩ : entry Nat)).Content ∧
    1 ≤ Cache.Length exampleNeverSet :=
  (C8_get_and_length_ignore_expiration exampleNeverSet "k" 7000000000).2.2.1
    ⟨42, 0⟩ (by decide) (by decide)

/-! ## The tracked-keys invariant -/

theorem nodup_append_single {xs : List String} {k : String} (h : xs.Nodup)
    (hk : k ∉ xs) : (xs ++ [k]).Nodup := by
  rw [List.nodup_append]
  refine ⟨h, List.nodup_singleton k, ?_⟩
  intro a ha hb
  rw [List.mem_singleton] at hb
  subst hb
  exact hk ha

theorem survives_eq_true_iff {α : Type} (es : List (String × entry α))
    (cur : Int) (k : String) :
    survives es cur k = true
      ↔ ∃ e, lookupEntry es k = some e ∧ ¬ isExpiredAt e cur := by
  cases h : lookupEntry es k <;> simp [survives, h]

theorem goodCache_New {α : Type} (expirationTime cleanupTime now : Int) :
    goodCache (New α expirationTime cleanupTime now) := by
  constructor <;> simp [New, goodCache]

theorem goodCache_Add {α : Type} (c : Cache α) (key : String) (v : α)
    (d now : Int) (h : goodCache c) : goodCache (Cache.Add c key v d now).2 := by
  obtain ⟨h1, h2⟩ := h
  cases hl : lookupEntry c.entries key with
  | some e =>
    simp only [Cache.Add, hl]
    exact ⟨h1, h2⟩
  | none =>
    have hnot : key ∉ c.expiringKeys := by
      intro hk
      have hs := h1 key hk
      rw [hl] at hs
      simp at hs
    simp only [Cache.Add, hl]
    by_cases hle : (if d = DefaultExpirationTime then unixOf (now + c.expirationTime)
        else unixOf (now + d)) ≤ c.nextCleanupTime
    · rw [if_pos hle]
      constructor
      · intro k hk
        rw [lookupEntry_insertEntry]
        by_cases hkk : key = k
        · simp [hkk]
        · rcases List.mem_append.mp hk with hk1 | hk2
          · simpa [hkk] using h1 k hk1
          · rw [List.mem_singleton] at hk2
            exact absurd hk2.symm hkk
      · exact nodup_append_single h2 hnot
    · rw [if_neg hle]
      constructor
      · intro k hk
        rw [lookupEntry_insertEntry]
        by_cases hkk : key = k
        · simp [hkk]
        · simpa [hkk] using h1 k hk
      · exact h2

theorem goodCache_Set {α : Type} (c : Cache α) (key : String) (v : α)
    (d now : Int) (h : goodCache c) : goodCache (Cache.Set c key v d now) := by
  obtain ⟨h1, h2⟩ := h
  have hek0 : ∀ xs, xs = (if key ∈ c.expiringKeys
      then removeByValue c.expiringKeys key else c.expiringKeys) →
      (∀ k, k ∈ xs → k ∈ c.expiringKeys) ∧ xs.Nodup ∧ key ∉ xs := by
    intro xs hxs
    by_cases hmem : key ∈ c.expiringKeys
    · rw [if_pos hmem] at hxs
      subst hxs
      exact ⟨fun k hk => mem_of_mem_removeByValue hk,
        nodup_removeByValue key h2, not_mem_removeByValue_self h2⟩
    · rw [if_neg hmem] at hxs
      subst hxs
      exact ⟨fun k hk => hk, h2, hmem⟩
  obtain ⟨hsub, hnd, hkey⟩ := hek0 _ rfl
  simp only [Cache.Set]
  by_cases hle : (if d = DefaultExpirationTime then unixOf (now + c.expirationTime)
      else unixOf (now + d)) ≤ c.nextCleanupTime
  · rw [if_pos hle]
    constructor
    · intro k hk
      rw [lookupEntry_insertEntry]
      by_cases hkk : key = k
      · simp [hkk]
      · rcases List.mem_append.mp hk with hk1 | hk2
        · simpa [hkk] using h1 k (hsub k hk1)
        · rw [List.mem_singleton] at hk2
          exact absurd hk2.symm hkk
    · exact nodup_append_single hnd hkey
  · rw [if_neg hle]
    constructor
    · intro k hk
      rw [lookupEntry_insertEntry]
      by_cases hkk : key = k
      · simp [hkk]
      · simpa [hkk] using h1 k (hsub k hk)
    · exact hnd

theorem goodCache_Delete {α : Type} (c : Cache α) (key : String)
    (h : goodCache c) : goodCache (Cache.Delete c key).2 := by
  obtain ⟨h1, h2⟩ := h
  cases hl : lookupEntry c.entries key with
  | none =>
    simp only [Cache.Delete, hl]
    exact ⟨h1, h2⟩
  | some e =>
    simp only [Cache.Delete, hl]
    by_cases hmem : key ∈ c.expiringKeys
    · rw [if_pos hmem]
      constructor
      · intro k hk
        have hk0 : k ∈ c.expiringKeys := mem_of_mem_removeByValue hk
        have hkk : ¬ key = k := by
          intro hh
          subst hh
          exact not_mem_removeByValue_self h2 hk
        rw [lookupEntry_eraseEntry]
        simpa [hkk] using h1 k hk0
      · exact nodup_removeByValue key h2
    · rw [if_neg hmem]
      constructor
      · intro k hk
        have hkk : ¬ key = k := by
          intro hh
          subst hh
          exact hmem hk
        rw [lookupEntry_eraseEntry]
        simpa [hkk] using h1 k hk
      · exact h2

theorem goodCache_Flush {α : Type} (c : Cache α) : goodCache (Cache.Flush c) := by
  constructor <;> simp [Cache.Flush, goodCache]

theorem goodCache_sweep {α : Type} (c : Cache α) (now : Int)
    (h : goodCache c) : goodCache (c.removeExpiredEntries now) := by
  obtain ⟨h1, h2⟩ := h
  constructor
  · intro k hk
    rw [sweep_keys] at hk
    obtain ⟨hk0, hs⟩ := List.mem_filter.mp hk
    obtain ⟨e, hle, hlive⟩ := (survives_eq_true_iff c.entries (unixOf now) k).mp hs
    rw [sweep_lookup_live c now k e hle hlive]
    simp
  · rw [sweep_keys]
    exact h2.filter _

theorem reachable_goodCache {α : Type} {c : Cache α} (h : Reachable α c) :
    goodCache c := by
  induction h with
  | new expirationTime cleanupTime now => exact goodCache_New expirationTime cleanupTime now
  | add c key v d now _ ih => exact goodCache_Add c key v d now ih
  | set c key v d now _ ih => exact goodCache_Set c key v d now ih
  | del c key _ ih => exact goodCache_Delete c key ih
  | flush c _ ih => exact goodCache_Flush c
  | sweep c now _ ih => exact goodCache_sweep c now ih

/-- C9.  In every cache state reachable through the public interface —
that is, after every completed `Add`, `Set`, `Delete`, `Flush` and sweep
pass starting from `New` — every key in the tracked expiring-keys list has
a binding in the entries map. -/
theorem C9_tracked_keys_have_entries {α : Type} (c : Cache α)
    (h : Reachable α c) :
    ∀ k, k ∈ c.expiringKeys → (lookupEntry c.entries k).isSome = true :=
  (reachable_goodCache h).1

/-- C9 witness: the concrete post-`Set` state is reachable, tracks `"k"`,
and indeed holds an entry for it. -/
theorem C9_tracked_keys_have_entries_witness :
    (lookupEntry exampleNeverSet.entries "k").isSome = true :=
  C9_tracked_keys_have_entries exampleNeverSet
    (Reachable.set exampleBase "k" 42 NoExpirationTime 1000000000
      (Reachable.new 0 5000000000 1000000000)) "k" (by decide)

/-! ## Entries whose expiration lies past `nextCleanupTime` -/

theorem lookupEntry_Set_self {α : Type} (c : Cache α) (key : String) (v : α)
    (d now : Int) :
    lookupEntry (Cache.Set c key v d now).entries key
      = some ⟨v, if d = DefaultExpirationTime then unixOf (now + c.expirationTime)
          else unixOf (now + d)⟩ := by
  simp [Cache.Set, lookupEntry_insertEntry]

theorem Set_not_tracked_of_gt {α : Type} (c : Cache α) (key : String) (v : α)
    (d now : Int) (h : goodCache c)
    (hgt : c.nextCleanupTime < (if d = DefaultExpirationTime
        then unixOf (now + c.expirationTime) else unixOf (now + d))) :
    key ∉ (Cache.Set c key v d now).expiringKeys := by
  obtain ⟨h1, h2⟩ := h
  have hle : ¬ ((if d = DefaultExpirationTime then unixOf (now + c.expirationTime)
      else unixOf (now + d)) ≤ c.nextCleanupTime) := not_le.mpr hgt
  simp only [Cache.Set]
  rw [if_neg hle]
  by_cases hmem : key ∈ c.expiringKeys
  · rw [if_pos hmem]
    exact not_mem_removeByValue_self h2
  · rw [if_neg hmem]
    exact hmem

theorem Add_success_parts {α : Type} (c : Cache α) (key : String) (v : α)
    (d now : Int) (hl : lookupEntry c.entries key = none)
    (hgt : c.nextCleanupTime < (if d = DefaultExpirationTime
        then unixOf (now + c.expirationTime) else unixOf (now + d))) :
    (Cache.Add c key v d now).1 = none ∧
    (Cache.Add c key v d now).2.expiringKeys = c.expiringKeys ∧
    lookupEntry (Cache.Add c key v d now).2.entries key
      = some ⟨v, if d = DefaultExpirationTime then unixOf (now + c.expirationTime)
          else unixOf (now + d)⟩ := by
  have hle : ¬ ((if d = DefaultExpirationTime then unixOf (now + c.expirationTime)
      else unixOf (now + d)) ≤ c.nextCleanupTime) := not_le.mpr hgt
  refine ⟨?_, ?_, ?_⟩ <;> simp [Cache.Add, hl, hle, lookupEntry_insertEntry]

theorem applySweeps_keep {α : Type} (e : entry α) :
    ∀ (ns : List Int) (c : Cache α) (k : String), k ∉ c.expiringKeys →
      lookupEntry c.entries k = some e →
      lookupEntry (applySweeps c ns).entries k = some e ∧
        k ∉ (applySweeps c ns).expiringKeys := by
  intro ns
  induction ns with
  | nil =>
    intro c k h1 h2
    exact ⟨h2, h1⟩
  | cons n ns ih =>
    intro c k h1 h2
    have hl : lookupEntry (c.removeExpiredEntries n).entries k = some e :=
      (sweep_lookup_untracked c n k h1).trans h2
    have hk : k ∉ (c.removeExpiredEntries n).expiringKeys := by
      rw [sweep_keys]
      intro hmem
      exact h1 (List.mem_filter.mp hmem).1
    simpa [applySweeps] using ih (c.removeExpiredEntries n) k hk hl

theorem Get_eq_of_lookup {α : Type} (c : Cache α) (k : String) (e : entry α)
    (h : lookupEntry c.entries k = some e) : Cache.Get c k = some e.Content := by
  simp [Cache.Get, h]

/-- C10.  `nextCleanupTime` is set once by `New` and no operation ever
changes it; the sweep inspects only tracked keys.  Hence in any reachable
cache, an entry written by `Set` — or by a successful `Add` — whose
computed expiration timestamp is strictly greater than `nextCleanupTime`
is never added to the tracked set, and it survives every sweep pass of any
later sequence of sweep instants: `Get` still returns its value and the
key is still untracked. -/
theorem C10_late_expiring_entries_never_swept {α : Type} (c : Cache α)
    (h : Reachable α c) (key : String) (v : α) (d now : Int)
    (hgt : c.nextCleanupTime < (if d = DefaultExpirationTime
        then unixOf (now + c.expirationTime) else unixOf (now + d))) :
    ((Cache.Set c key v d now).nextCleanupTime = c.nextCleanupTime ∧
     (Cache.Add c key v d now).2.nextCleanupTime = c.nextCleanupTime ∧
     (Cache.Delete c key).2.nextCleanupTime = c.nextCleanupTime ∧
     (Cache.Flush c).nextCleanupTime = c.nextCleanupTime ∧
     (c.removeExpiredEntries now).nextCleanupTime = c.nextCleanupTime) ∧
    (key ∉ (Cache.Set c key v d now).expiringKeys ∧
     ∀ ns, Cache.Get (applySweeps (Cache.Set c key v d now) ns) key = some v ∧
       key ∉ (applySweeps (Cache.Set c key v d now) ns).expiringKeys) ∧
    (lookupEntry c.entries key = none →
      key ∉ (Cache.Add c key v d now).2.expiringKeys ∧
      ∀ ns, Cache.Get (applySweeps (Cache.Add c key v d now).2 ns) key = some v ∧
        key ∉ (applySweeps (Cache.Add c key v d now).2 ns).expiringKeys) := by
  have hg := reachable_goodCache h
  refine ⟨⟨?_, ?_, ?_, ?_, ?_⟩, ?_, ?_⟩
  · simp [Cache.Set]
  · cases hl : lookupEntry c.entries key <;> simp [Cache.Add, hl]
  · cases hl : lookupEntry c.entries key <;> simp [Cache.Delete, hl]
  · simp [Cache.Flush]
  · exact sweep_nextCleanupTime c now
  · have hnt := Set_not_tracked_of_gt c key v d now hg hgt
    refine ⟨hnt, ?_⟩
    intro ns
    have hkeep := applySweeps_keep _ ns (Cache.Set c key v d now) key hnt
      (lookupEntry_Set_self c key v d now)
    exact ⟨Get_eq_of_lookup _ key _ hkeep.1, hkeep.2⟩
  · intro hl
    obtain ⟨_, hek, hlook⟩ := Add_success_parts c key v d now hl hgt
    have hnt : key ∉ (Cache.Add c key v d now).2.expiringKeys := by
      rw [hek]
      intro hmem
      have hs := hg.1 key hmem
      rw [hl] at hs
      simp at hs
    refine ⟨hnt, ?_⟩
    intro ns
    have hkeep := applySweeps_keep _ ns (Cache.Add c key v d now).2 key hnt hlook
    exact ⟨Get_eq_of_lookup _ key _ hkeep.1, hkeep.2⟩

/-- C10 witness: on the concrete base cache (`nextCleanupTime = 6`), a
`Set` with TTL 10 s stores expiration 11 > 6; sweeps at 7 s and 2000 s
both leave the entry retrievable. -/
theorem C10_late_expiring_entries_never_swept_witness :
    Cache.Get (applySweeps (Cache.Set exampleBase "z" 9 10000000000 1000000000)
      [7000000000, 2000000000000]) "z" = some 9 :=
  ((C10_late_expiring_entries_never_swept exampleBase
      (Reachable.new 0 5000000000 1000000000) "z" 9 10000000000 1000000000
      (by decide)).2.1.2 [7000000000, 2000000000000]).1

/-! ## The router -/

theorem uint32OfInt_of_range {n : Int} (h0 : 0 ≤ n) (h1 : n < 4294967296) :
    uint32OfInt n = n.toNat := by
  unfold uint32OfInt
  rw [Int.emod_eq_of_lt h0 h1]

theorem NewShardedCache_wf {α : Type} (n expirationTime cleanupTime now : Int)
    (h1 : 1 ≤ n) (h2 : n < 4294967296) :
    NewShardedCache α n expirationTime cleanupTime now
        = some { shards := List.replicate n.toNat (New α expirationTime cleanupTime now)
                 shardCount := n } ∧
    wfSharded { shards := List.replicate n.toNat (New α expirationTime cleanupTime now)
                shardCount := n } := by
  constructor
  · rw [NewShardedCache, if_neg (by omega)]
  · exact ⟨h1, h2, List.length_replicate _ _⟩

/-- C4.  For a well-formed router (`shardCount ≥ 1`, in `uint32` range,
slice of exactly that many shards, as `NewShardedCache` builds), shard
selection is the pure function `fnv32(key) mod shardCount` — the same key
always yields the same index — selection never panics, and every keyed
operation is exactly the corresponding single-cache operation on the
selected shard: reads return its result unchanged, and writes replace the
selected shard with that operation's post-state, leaving all other shards
untouched. -/
theorem C4_router_delegates_to_hash_selected_shard {α : Type}
    (sc : ShardedCache α) (hwf : wfSharded sc) (key : String) (v : α)
    (d now : Int) :
    sc.getShardIndex key = some (fnv32OfKey key % sc.shardCount.toNat) ∧
    sc.getShard key = sc.shards.get? (fnv32OfKey key % sc.shardCount.toNat) ∧
    (sc.getShard key).isSome = true ∧
    sc.Get key = (sc.getShard key).map (fun sh => sh.Get key) ∧
    sc.GetWithExpiration key
      = (sc.getShard key).map (fun sh => sh.GetWithExpiration key) ∧
    sc.Add key v d now = (sc.getShard key).map (fun sh =>
      ((sh.Add key v d now).1,
        { sc with
            shards := sc.shards.set (fnv32OfKey key % sc.shardCount.toNat)
                        (sh.Add key v d now).2 })) ∧
    sc.Set key v d now = (sc.getShard key).map (fun sh =>
      { sc with
          shards := sc.shards.set (fnv32OfKey key % sc.shardCount.toNat)
                      (sh.Set key v d now) }) ∧
    sc.Delete key = (sc.getShard key).map (fun sh =>
      ((sh.Delete key).1,
        { sc with
            shards := sc.shards.set (fnv32OfKey key % sc.shardCount.toNat)
                        (sh.Delete key).2 })) := by
  obtain ⟨h1, h2, h3⟩ := hwf
  have h0 : (0 : Int) ≤ sc.shardCount := le_trans zero_le_one h1
  have hm : uint32OfInt sc.shardCount = sc.shardCount.toNat :=
    uint32OfInt_of_range h0 h2
  have hpos : 0 < sc.shardCount.toNat := by omega
  have hne : sc.shardCount.toNat ≠ 0 := Nat.pos_iff_ne_zero.mp hpos
  have hidx : sc.getShardIndex key = some (fnv32OfKey key % sc.shardCount.toNat) := by
    simp [ShardedCache.getShardIndex, hm, hne]
  have hlt : fnv32OfKey key % sc.shardCount.toNat < sc.shards.length := by
    rw [h3]
    exact Nat.mod_lt _ hpos
  have hget : sc.shards.get? (fnv32OfKey key % sc.shardCount.toNat)
      = some (sc.shards.get ⟨fnv32OfKey key % sc.shardCount.toNat, hlt⟩) :=
    List.get?_eq_get hlt
  have hshard : sc.getShard key
      = sc.shards.get? (fnv32OfKey key % sc.shardCount.toNat) := by
    simp [ShardedCache.getShard, hidx]
  refine ⟨hidx, hshard, ?_, ?_, ?_, ?_, ?_, ?_⟩
  · rw [hshard, hget]
    rfl
  · simp only [ShardedCache.Get, hshard, hget]
    rfl
  · simp only [ShardedCache.GetWithExpiration, hshard, hget]
    rfl
  · simp only [ShardedCache.Add, hidx, hshard, hget]
    rfl
  · simp only [ShardedCache.Set, hidx, hshard, hget]
    rfl
  · simp only [ShardedCache.Delete, hidx, hshard, hget]
    rfl

/-- C4 witness: on a concrete two-shard router, `Get` is the delegation
to the hash-selected shard. -/
theorem C4_router_delegates_to_hash_selected_shard_witness :
    exampleRouter.Get "a"
      = (exampleRouter.getShard "a").map (fun sh => sh.Get "a") :=
  (C4_router_delegates_to_hash_selected_shard exampleRouter
    ⟨by decide, by decide, by decide⟩ "a" 7 0 0).2.2.2.1

end Cachekit
